import Mathlib

/-!
Verification of the PDF RAG ingestion pipeline (chunker, embedding batcher,
retry policy, query handler, ingestion orchestrator), shallowly embedded from
`lambda/pdf-processor/index.js` and `lambda/query-handler/index.js`.

Text is modelled as `List Char`; JavaScript numbers appearing here are
nonnegative integers in all reachable states, modelled as `Nat`
(`Math.max(0, end - overlap)` coincides with truncated subtraction on `Nat`).
Loops of the source that are not structurally terminating are embedded with a
fuel parameter: `none` means the loop did not finish within the given fuel.
-/

/-- Text payloads, chunks and keys: JavaScript strings as lists of characters. -/
abbrev Str := List Char

/-- JavaScript `text.slice(start, end)` for `0 ≤ start ≤ end`: the characters
in positions `[s, e)`. -/
def jsSlice (text : Str) (s e : Nat) : Str :=
  (text.take e).drop s

/-- JavaScript `String.prototype.trim()`: whitespace removed from both ends. -/
def trimChars (s : Str) : Str :=
  ((s.dropWhile Char.isWhitespace).reverse.dropWhile Char.isWhitespace).reverse

/-- Decimal digits of a number, as produced by JavaScript string interpolation. -/
def natChars (n : Nat) : Str :=
  (Nat.repr n).data

/-- From the pdf-processor handler: `key.replace(/\//g, '_').replace(/\./g, '-')`.
Both patterns are single characters, so global replacement is a character map. -/
def idPrefixOf (key : Str) : Str :=
  (key.map (fun c => if c = '/' then '_' else c)).map (fun c => if c = '.' then '-' else c)

/-- Loop body of `splitText` (pdf-processor): while `start < len`, emit
`text.slice(start, min(start+chunkSize, len))`, stop if the window reached the
end, otherwise continue from `max(0, end - overlap)`.  The fuel counts loop
iterations still allowed; `none` means the fuel ran out before the loop ended. -/
def splitTextLoop (text : Str) (chunkSize overlap : Nat) : Nat → Nat → Option (List Str)
  | 0, _ => none
  | fuel + 1, start =>
    if start < text.length then
      let e := min (start + chunkSize) text.length
      let chunk := jsSlice text start e
      if e = text.length then
        some [chunk]
      else
        match splitTextLoop text chunkSize overlap fuel (e - overlap) with
        | none => none
        | some rest => some (chunk :: rest)
    else
      some []

/-- `splitText(text, chunkSize, overlap)` from the pdf-processor, run with fuel
`text.length + 1` (enough for every valid configuration, see
`splitText_terminates`). -/
def splitText (text : Str) (chunkSize overlap : Nat) : Option (List Str) :=
  splitTextLoop text chunkSize overlap (text.length + 1) 0

/-- The same loop on index spans only: each emitted chunk recorded as its
half-open span `(start, end)` in the source text. -/
def splitSpansLoop (len chunkSize overlap : Nat) : Nat → Nat → Option (List (Nat × Nat))
  | 0, _ => none
  | fuel + 1, start =>
    if start < len then
      let e := min (start + chunkSize) len
      if e = len then
        some [(start, e)]
      else
        match splitSpansLoop len chunkSize overlap fuel (e - overlap) with
        | none => none
        | some rest => some ((start, e) :: rest)
    else
      some []

/-- Spans of the chunks `splitText` produces on a text of length `len`. -/
def splitSpans (len chunkSize overlap : Nat) : Option (List (Nat × Nat)) :=
  splitSpansLoop len chunkSize overlap (len + 1) 0

/-- Characterisation of the span list the chunker loop produces when started at
position `start`. -/
def spansGood (len cs ov : Nat) : Nat → List (Nat × Nat) → Prop
  | start, [] => len ≤ start
  | start, (s, e) :: rest =>
      s = start ∧ start < len ∧ e = min (start + cs) len ∧
      ((e = len ∧ rest = []) ∨ (e < len ∧ spansGood len cs ov (e - ov) rest))

/-- Concatenation of chunks with the duplicated overlap removed: the first
chunk in full, every later chunk with its first `ov` characters dropped. -/
def overlapJoin (ov : Nat) : List Str → Str
  | [] => []
  | c :: rest => c ++ (rest.map (List.drop ov)).flatten

/-- One chunk from one span. -/
def sliceSpan (text : Str) (p : Nat × Nat) : Str :=
  jsSlice text p.1 p.2

/-- Retryable-status test from `createEmbeddingsWithRetry`:
`status === 429 || (status >= 500 && status < 600)`.  An absent status
(`undefined` in the source) satisfies neither comparison. -/
def isRetryableStatus (s : Option Nat) : Bool :=
  (s == some 429) ||
    (match s with
     | some c => decide (500 ≤ c) && decide (c < 600)
     | none => false)

/-- Outcome of one run of `createEmbeddingsWithRetry`: the returned value or
the thrown error, the backoff sleeps performed (in order), and how many
provider calls were made.  The thrown error is `none` exactly when the loop
body never ran (`maxRetries = 0`), where the source throws an undefined
`lastErr`; otherwise it is the last provider error. -/
structure RetryTrace (ε α : Type) where
  result : Except (Option ε) α
  delays : List Nat
  calls : Nat

/-- The `while (attempt < maxRetries)` loop of `createEmbeddingsWithRetry`:
call the provider; on success return; on a non-retryable error rethrow; on a
429/5xx error sleep `min(1000 * 2^attempt + jitter, 8000)` and try again with
`attempt + 1`; when the budget is exhausted rethrow the last error.  The
provider is an oracle indexed by the attempt number, `statusOf` extracts
`err?.status || err?.response?.status`, and `jitter attempt` models
`Math.random() * 250`. -/
def retryLoop (provider : Nat → Except ε α) (statusOf : ε → Option Nat)
    (jitter : Nat → Nat) (maxRetries : Nat) (attempt : Nat) (lastErr : Option ε) :
    RetryTrace ε α :=
  if _h : attempt < maxRetries then
    match provider attempt with
    | .ok v => ⟨.ok v, [], 1⟩
    | .error e =>
      if isRetryableStatus (statusOf e) then
        let d := min (1000 * 2 ^ attempt + jitter attempt) 8000
        let r := retryLoop provider statusOf jitter maxRetries (attempt + 1) (some e)
        ⟨r.result, d :: r.delays, r.calls + 1⟩
      else ⟨.error (some e), [], 1⟩
  else ⟨.error lastErr, [], 0⟩
termination_by maxRetries - attempt
decreasing_by omega

/-- `createEmbeddingsWithRetry` from the pdf-processor: the retry loop started
at attempt 0 with no last error recorded. -/
def createEmbeddingsWithRetry (provider : Nat → Except ε α) (statusOf : ε → Option Nat)
    (jitter : Nat → Nat) (maxRetries : Nat) : RetryTrace ε α :=
  retryLoop provider statusOf jitter maxRetries 0 none

/-- A record pushed into `vectors` by `embedAllChunks`: the upsert payload
`id / values / metadata(filename, chunk_index, text, source_url)` with the
metadata fields inlined. -/
structure VectorRecord (V : Type) where
  id : Str
  values : V
  filename : Str
  chunk_index : Nat
  text : Str
  source_url : Str

/-- Specification-level view of the chunks surviving the batcher: each chunk
trimmed and paired with its original zero-based position (`start` is the
position of the first chunk of the list), chunks that are empty after
trimming dropped. -/
def survivors (chunks : List Str) (start : Nat) : List (Str × Nat) :=
  match chunks with
  | [] => []
  | c :: rest =>
    if 0 < (trimChars c).length then (trimChars c, start) :: survivors rest (start + 1)
    else survivors rest (start + 1)

/-- One `vectors.push({...})` record of `embedAllChunks`: `x` is a surviving
(trimmed chunk, global index) pair zipped with its embedding. -/
def mkRecord (idPrefix filename sourceUrl : Str) (x : (Str × Nat) × V) : VectorRecord V :=
  ⟨idPrefix ++ ('-' :: natChars x.1.2), x.2, filename, x.1.2, x.1.1, sourceUrl⟩

/-- The batching loop of `embedAllChunks`: `remaining` is `chunks.drop start`,
so the guard `start < chunks.length` is `remaining ≠ []`.  Each iteration
trims the next `batchSize` chunks, pairs each with its global index, drops
the empty ones, and if any remain makes one provider call on the whole batch
(`embed` is the oracle for a successful `createEmbeddingsWithRetry` call,
assumed to return one vector per input) and pushes one record per surviving
chunk, with `id = idPrefix + "-" + globalIndex`.  Fuel bounds the number of
iterations (`none` = ran out; the source loop never terminates for
`batchSize = 0`).  The second result component records the inputs of the
provider calls made, in order. -/
def embedAllChunksLoop (embed : List Str → List V) (idPrefix filename sourceUrl : Str)
    (batchSize : Nat) :
    Nat → List Str → Nat → Option (List (VectorRecord V) × List (List Str))
  | _, [], _ => some ([], [])
  | 0, _ :: _, _ => none
  | fuel + 1, remaining@(_ :: _), start =>
    let batch := (remaining.take batchSize).map trimChars
    let nonEmpty := (batch.mapIdx (fun idx t => (t, start + idx))).filter
      (fun x => 0 < x.1.length)
    if nonEmpty.isEmpty then
      embedAllChunksLoop embed idPrefix filename sourceUrl batchSize fuel
        (remaining.drop batchSize) (start + batchSize)
    else
      let inputs := nonEmpty.map (fun x => x.1)
      let embs := embed inputs
      let recs := (nonEmpty.zip embs).map (mkRecord idPrefix filename sourceUrl)
      match embedAllChunksLoop embed idPrefix filename sourceUrl batchSize fuel
          (remaining.drop batchSize) (start + batchSize) with
      | none => none
      | some (rest, calls) => some (recs ++ rest, inputs :: calls)

/-- `embedAllChunks` from the pdf-processor, on the success path: the batching
loop started at index 0 with fuel `chunks.length` (enough whenever
`batchSize > 0`). -/
def embedAllChunks (embed : List Str → List V) (idPrefix filename sourceUrl : Str)
    (batchSize : Nat) (chunks : List Str) :
    Option (List (VectorRecord V) × List (List Str)) :=
  embedAllChunksLoop embed idPrefix filename sourceUrl batchSize chunks.length chunks 0


/-- Parsed request body of the query handler: each field present or absent.
`parseBody` returns an empty object for a missing or unparsable body, which
the call sites model as `none`. -/
structure QueryBody where
  query : Option Str
  topK : Option Nat
  nspace : Option Str

/-- Provider interactions of the query handler, in order. -/
inductive QueryCall where
  | embed (input : Str)
  | search (topK : Nat)
  | chat

/-- The query-handler entry point, modelled up to its provider interactions:
the response status code and the provider calls made, in order.  `envOk` is
the conjunction of the three required environment variables being present;
`httpMethod = none` stands for an absent or empty (falsy) `event.httpMethod`;
`body = none` models a missing or unparsable request body.  The 200-branch
response payload (answer text and match projection) is abstracted away; the
guard order and the call sequence — embed the query, query the index, call
the chat model — follow the source. -/
def queryHandler (envOk : Bool) (httpMethod : Option Str) (body : Option QueryBody) :
    Nat × List QueryCall :=
  if envOk = false then (500, [])
  else if (match httpMethod with
           | some m => decide (m ≠ []) && decide (m ≠ ("POST").data)
           | none => false) then (405, [])
  else
    let b := body.getD ⟨none, none, none⟩
    let q := trimChars (b.query.getD [])
    if q = [] then (400, [])
    else (200, [QueryCall.embed q, QueryCall.search (b.topK.getD 5), QueryCall.chat])

/-- Side effects of one document ingestion after text extraction, in order. -/
inductive IngestAction (V : Type) where
  | embedProviderCall (inputs : List Str)
  | upsertBatch (vectors : List (VectorRecord V))
  | deleteObject (key : Str)

/-- The pdf-processor upsert loop: slices the vector list into consecutive
batches of at most 100. -/
def upsertBatches : List A → List (List A)
  | [] => []
  | l@(_ :: _) => l.take 100 :: upsertBatches (l.drop 100)
termination_by l => l.length
decreasing_by subst_vars; simp only [List.length_drop, List.length_cons]; omega

/-- The `s3://bucket/key` source URL built by the pdf-processor. -/
def s3Url (bucket key : Str) : Str :=
  ("s3://").data ++ bucket ++ ("/").data ++ key

/-- The pdf-processor handler for one record, from the point where text has
been extracted: if the text is empty after trimming, stop (logged skip — a
success with no side effects); otherwise chunk with window 1000 / overlap
200, embed all chunks in batches of 64 (`embed` is the oracle for successful
provider calls), and if any vectors were produced upsert them in batches of
100 and then delete the source object.  The result lists the side effects in
order; `none` marks a run the fuel embedding cannot finish (unreachable for
these fixed, valid parameters). -/
def processExtractedText (embed : List Str → List V) (bucket key : Str) (rawText : Str) :
    Option (List (IngestAction V)) :=
  if trimChars rawText = [] then some []
  else
    match splitText rawText 1000 200 with
    | none => none
    | some docs =>
      match embedAllChunks embed (idPrefixOf key) key (s3Url bucket key) 64 docs with
      | none => none
      | some (vectors, calls) =>
        let embedActs := calls.map IngestAction.embedProviderCall
        if vectors.length = 0 then some embedActs
        else some (embedActs ++ (upsertBatches vectors).map IngestAction.upsertBatch ++
          [IngestAction.deleteObject key])


theorem splitTextLoop_eq_spans (text : Str) (cs ov : Nat) :
    ∀ fuel start, splitTextLoop text cs ov fuel start =
      (splitSpansLoop text.length cs ov fuel start).map (List.map (sliceSpan text)) := by
  intro fuel
  induction fuel with
  | zero => intro start; rfl
  | succ n ih =>
    intro start
    simp only [splitTextLoop, splitSpansLoop]
    by_cases h : start < text.length
    · simp only [h, if_true]
      by_cases he : min (start + cs) text.length = text.length
      · simp [he, sliceSpan]
      · simp only [he, if_false, ih]
        cases splitSpansLoop text.length cs ov n (min (start + cs) text.length - ov) with
        | none => simp
        | some rest => simp [sliceSpan]
    · simp [h]

theorem splitSpansLoop_good (len cs ov : Nat) (hov : ov < cs) :
    ∀ fuel start, len - start < fuel →
      ∃ spans, splitSpansLoop len cs ov fuel start = some spans ∧
        spansGood len cs ov start spans := by
  intro fuel
  induction fuel with
  | zero => intro start h; omega
  | succ n ih =>
    intro start hfuel
    by_cases h : start < len
    · by_cases he : min (start + cs) len = len
      · refine ⟨[(start, min (start + cs) len)], ?_, ?_⟩
        · simp [splitSpansLoop, h, he]
        · exact ⟨rfl, h, rfl, Or.inl ⟨he, rfl⟩⟩
      · have hlt : min (start + cs) len < len := by
          rcases Nat.lt_or_ge (min (start + cs) len) len with h1 | h1
          · exact h1
          · omega
        have hmin : min (start + cs) len = start + cs := by omega
        have hrec : len - (min (start + cs) len - ov) < n := by omega
        obtain ⟨rest, hrest, hgood⟩ := ih (min (start + cs) len - ov) hrec
        refine ⟨(start, min (start + cs) len) :: rest, ?_, ?_⟩
        · simp [splitSpansLoop, h, he, hrest]
        · exact ⟨rfl, h, rfl, Or.inr ⟨hlt, hgood⟩⟩
    · refine ⟨[], ?_, ?_⟩
      · simp [splitSpansLoop, h]
      · simpa [spansGood] using (by omega : len ≤ start)

theorem splitSpans_good (len cs ov : Nat) (hov : ov < cs) :
    ∃ spans, splitSpans len cs ov = some spans ∧ spansGood len cs ov 0 spans :=
  splitSpansLoop_good len cs ov hov (len + 1) 0 (by omega)

theorem spansGood_nil_of_le (len cs ov start : Nat) (h : len ≤ start) :
    ∀ spans, spansGood len cs ov start spans → spans = [] := by
  intro spans hg
  cases spans with
  | nil => rfl
  | cons p rest =>
    obtain ⟨s, e⟩ := p
    obtain ⟨-, hstart, -⟩ := hg
    omega

theorem spansGood_unique (len cs ov : Nat) :
    ∀ spans₁ spans₂ start, spansGood len cs ov start spans₁ →
      spansGood len cs ov start spans₂ → spans₁ = spans₂ := by
  intro spans₁
  induction spans₁ with
  | nil =>
    intro spans₂ start h1 h2
    cases spans₂ with
    | nil => rfl
    | cons p rest =>
      obtain ⟨s, e⟩ := p
      obtain ⟨-, hstart, -⟩ := h2
      exact absurd hstart (by simpa [spansGood] using h1)
  | cons p rest ih =>
    intro spans₂ start h1 h2
    obtain ⟨s, e⟩ := p
    obtain ⟨hs, hstart, he, hd⟩ := h1
    cases spans₂ with
    | nil => exact absurd hstart (by simpa [spansGood] using h2)
    | cons q rest₂ =>
      obtain ⟨s₂, e₂⟩ := q
      obtain ⟨hs₂, -, he₂, hd₂⟩ := h2
      subst hs hs₂ he he₂
      rcases hd with ⟨hel, hrl⟩ | ⟨hel, hg⟩
      · rcases hd₂ with ⟨-, hrl₂⟩ | ⟨hel₂, -⟩
        · rw [hrl, hrl₂]
        · omega
      · rcases hd₂ with ⟨hel₂, -⟩ | ⟨-, hg₂⟩
        · omega
        · rw [ih rest₂ _ hg hg₂]

theorem jsSlice_append_drop (text : Str) (s e : Nat) (hse : s ≤ e) (hel : e ≤ text.length) :
    jsSlice text s e ++ text.drop e = text.drop s := by
  have h1 : s ≤ (text.take e).length := by
    simp only [List.length_take]
    omega
  calc jsSlice text s e ++ text.drop e
      = (text.take e).drop s ++ text.drop e := rfl
    _ = (text.take e ++ text.drop e).drop s := (List.drop_append_of_le_length h1).symm
    _ = text.drop s := by rw [List.take_append_drop]

theorem length_jsSlice (text : Str) (s e : Nat) (hel : e ≤ text.length) :
    (jsSlice text s e).length = e - s := by
  simp only [jsSlice, List.length_drop, List.length_take]
  omega

theorem spansGood_join (text : Str) (cs ov : Nat) (hov : ov < cs) :
    ∀ spans start, spansGood text.length cs ov start spans → start < text.length →
      overlapJoin ov (spans.map (sliceSpan text)) = text.drop start := by
  intro spans
  induction spans with
  | nil =>
    intro start h hstart
    exact absurd hstart (by simpa [spansGood] using h)
  | cons p rest ih =>
    intro start hg hstart
    obtain ⟨s, e⟩ := p
    obtain ⟨hs, -, he, hd⟩ := hg
    subst hs
    rcases hd with ⟨hel, hrl⟩ | ⟨hel, hgood⟩
    · subst hrl
      simp only [List.map_cons, List.map_nil, overlapJoin, List.flatten_nil, List.append_nil]
      simp [sliceSpan, jsSlice, hel, List.take_length]
    · have hecs : e = s + cs := by omega
      cases rest with
      | nil =>
        have : text.length ≤ e - ov := by simpa [spansGood] using hgood
        omega
      | cons r rs =>
        obtain ⟨s', e'⟩ := r
        have hrec := ih (e - ov) hgood (by omega)
        obtain ⟨hs', -, he', -⟩ := hgood
        have hlen' : ov < (sliceSpan text (s', e')).length := by
          rw [sliceSpan, length_jsSlice text s' e' (by omega)]
          omega
        simp only [List.map_cons, overlapJoin, List.flatten_cons] at hrec ⊢
        have hsplit : (sliceSpan text (s', e')).drop ov ++
            ((rs.map (sliceSpan text)).map (List.drop ov)).flatten =
            ((sliceSpan text (s', e') ++
              ((rs.map (sliceSpan text)).map (List.drop ov)).flatten).drop ov) := by
          rw [List.drop_append_of_le_length (by omega)]
        rw [← List.append_assoc, List.append_assoc, hsplit, hrec, List.drop_drop]
        have : e - ov + ov = e := by omega
        rw [this]
        exact jsSlice_append_drop text s e (by omega) (by omega)

theorem spansGood_chain (len cs ov : Nat) (hov : ov < cs) :
    ∀ spans start, spansGood len cs ov start spans →
      List.Chain' (fun p q : Nat × Nat => q.1 + ov = p.2) spans := by
  intro spans
  induction spans with
  | nil => intro start _; exact List.chain'_nil
  | cons p rest ih =>
    intro start hg
    obtain ⟨s, e⟩ := p
    obtain ⟨hs, -, he, hd⟩ := hg
    rcases hd with ⟨-, hrl⟩ | ⟨hel, hgood⟩
    · subst hrl; exact List.chain'_singleton _
    · cases rest with
      | nil => exact List.chain'_singleton _
      | cons r rs =>
        obtain ⟨s', e'⟩ := r
        have hchain := ih (e - ov) hgood
        obtain ⟨hs', -, -, -⟩ := hgood
        refine List.chain'_cons.mpr ⟨?_, hchain⟩
        have hecs : e = min (start + cs) len := he
        simp only at hs' ⊢
        omega

theorem spansGood_length (len cs ov : Nat) (hov : ov < cs) :
    ∀ spans start, spansGood len cs ov start spans → start < len →
      spans.length = (len - start - ov - 1) / (cs - ov) + 1 := by
  intro spans
  induction spans with
  | nil =>
    intro start h hstart
    exact absurd hstart (by simpa [spansGood] using h)
  | cons p rest ih =>
    intro start hg hstart
    obtain ⟨s, e⟩ := p
    obtain ⟨-, -, he, hd⟩ := hg
    rcases hd with ⟨hel, hrl⟩ | ⟨hel, hgood⟩
    · subst hrl
      have hlt : len - start - ov - 1 < cs - ov := by omega
      simp [Nat.div_eq_of_lt hlt]
    · have hecs : e = start + cs := by omega
      have hrec := ih (e - ov) hgood (by omega)
      have hd0 : 0 < cs - ov := by omega
      have hdA : cs - ov ≤ len - start - ov - 1 := by omega
      rw [List.length_cons, hrec, Nat.div_eq_sub_div hd0 hdA]
      have : len - start - ov - 1 - (cs - ov) = len - (e - ov) - ov - 1 := by omega
      rw [this]

theorem spansGood_single (len cs ov : Nat) :
    ∀ spans, spansGood len cs ov 0 spans → 0 < len → len ≤ cs → spans = [(0, len)] := by
  intro spans hg hpos hle
  cases spans with
  | nil => exact absurd hpos (by simpa [spansGood] using hg)
  | cons p rest =>
    obtain ⟨s, e⟩ := p
    obtain ⟨hs, -, he, hd⟩ := hg
    have hel : e = len := by omega
    rcases hd with ⟨-, hrl⟩ | ⟨hlt, -⟩
    · rw [hs, hel, hrl]
    · omega

theorem splitSpansLoop_fuel (len cs ov : Nat) (hov : ov < cs) (fuel : Nat) (hfuel : len < fuel) :
    splitSpansLoop len cs ov fuel 0 = splitSpans len cs ov := by
  obtain ⟨s1, h1, g1⟩ := splitSpansLoop_good len cs ov hov fuel 0 (by omega)
  obtain ⟨s2, h2, g2⟩ := splitSpans_good len cs ov hov
  rw [h1, h2, spansGood_unique len cs ov s1 s2 0 g1 g2]

/-- C1: for every text and every configuration with `0 ≤ overlap < windowSize`
(which forces `windowSize > 0`), the chunk spans produced by `splitText` cover
the text exactly — concatenating the chunks with each later chunk's leading
`overlap` characters removed reconstructs the input — and every pair of
consecutive chunks overlaps by exactly `overlap` characters: each span starts
exactly `overlap` positions before the previous span ends (this holds for the
final pair as well, which the claim allows). -/
theorem chunker_covers_and_overlaps (text : Str) (cs ov : Nat) (hov : ov < cs) :
    ∃ spans, splitSpans text.length cs ov = some spans ∧
      splitText text cs ov = some (spans.map (sliceSpan text)) ∧
      overlapJoin ov (spans.map (sliceSpan text)) = text ∧
      List.Chain' (fun p q : Nat × Nat => q.1 + ov = p.2) spans := by
  obtain ⟨spans, hsp, hgood⟩ := splitSpans_good text.length cs ov hov
  have hsplit : splitText text cs ov = some (spans.map (sliceSpan text)) := by
    rw [splitText, splitTextLoop_eq_spans]
    rw [splitSpans] at hsp
    rw [hsp]
    rfl
  refine ⟨spans, hsp, hsplit, ?_, spansGood_chain _ _ _ hov spans 0 hgood⟩
  by_cases h0 : 0 < text.length
  · rw [spansGood_join text cs ov hov spans 0 hgood h0, List.drop_zero]
  · have htext : text = [] := by
      cases text with
      | nil => rfl
      | cons a l => simp at h0
    subst htext
    have hnil : spans = [] :=
      spansGood_nil_of_le _ cs ov 0 (by simp) spans hgood
    simp [hnil, overlapJoin]

/-- Witness for C1 at `text = "abcdef"`, `windowSize = 3`, `overlap = 1`. -/
theorem chunker_covers_and_overlaps_witness :
    1 < 3 ∧ ∃ spans, splitSpans (("abcdef".data).length) 3 1 = some spans ∧
      splitText ("abcdef".data) 3 1 = some (spans.map (sliceSpan ("abcdef".data))) ∧
      overlapJoin 1 (spans.map (sliceSpan ("abcdef".data))) = "abcdef".data ∧
      List.Chain' (fun p q : Nat × Nat => q.1 + 1 = p.2) spans :=
  ⟨by decide, chunker_covers_and_overlaps ("abcdef".data) 3 1 (by decide)⟩

/-- C2: with `overlap < windowSize`, a text longer than `windowSize` is split
into exactly `ceil((len - overlap) / (windowSize - overlap))` chunks (the
ceiling written as `(len - ov + (cs - ov) - 1) / (cs - ov)` on `Nat`); empty
text yields the empty sequence; nonempty text no longer than `windowSize`
yields the single chunk equal to the whole text; and a 2400-character text
with window 1000 and overlap 200 yields exactly the spans
`[0,1000), [800,1800), [1600,2400)`. -/
theorem chunker_count_edges_scenario (text : Str) (cs ov : Nat) (hov : ov < cs) :
    ∃ l, splitText text cs ov = some l ∧
      (cs < text.length → l.length = (text.length - ov + (cs - ov) - 1) / (cs - ov)) ∧
      (text = [] → l = []) ∧
      (text ≠ [] → text.length ≤ cs → l = [text]) ∧
      splitSpans 2400 1000 200 = some [(0, 1000), (800, 1800), (1600, 2400)] := by
  obtain ⟨spans, hsp, hgood⟩ := splitSpans_good text.length cs ov hov
  have hsplit : splitText text cs ov = some (spans.map (sliceSpan text)) := by
    rw [splitText, splitTextLoop_eq_spans]
    rw [splitSpans] at hsp
    rw [hsp]
    rfl
  refine ⟨spans.map (sliceSpan text), hsplit, ?_, ?_, ?_, by decide⟩
  · intro hcs
    rw [List.length_map]
    rw [spansGood_length text.length cs ov hov spans 0 hgood (by omega)]
    have h1 : text.length - ov + (cs - ov) - 1 = (text.length - 0 - ov - 1) + (cs - ov) := by
      omega
    rw [h1, Nat.add_div_right _ (by omega)]
  · intro htext
    subst htext
    have hnil : spans = [] :=
      spansGood_nil_of_le _ cs ov 0 (by simp) spans hgood
    simp [hnil]
  · intro hne hle
    have h0 : 0 < text.length := by
      cases text with
      | nil => simp at hne
      | cons a l => simp
    rw [spansGood_single text.length cs ov spans hgood h0 hle]
    simp [sliceSpan, jsSlice, List.take_length]

/-- Witness for C2 at `text = "abcdefgh"` (length 8 > windowSize), `windowSize
= 3`, `overlap = 1`. -/
theorem chunker_count_edges_scenario_witness :
    1 < 3 ∧ ∃ l, splitText ("abcdefgh".data) 3 1 = some l ∧
      (3 < ("abcdefgh".data).length →
        l.length = (("abcdefgh".data).length - 1 + (3 - 1) - 1) / (3 - 1)) ∧
      ("abcdefgh".data = [] → l = []) ∧
      ("abcdefgh".data ≠ [] → ("abcdefgh".data).length ≤ 3 → l = ["abcdefgh".data]) ∧
      splitSpans 2400 1000 200 = some [(0, 1000), (800, 1800), (1600, 2400)] :=
  ⟨by decide, chunker_count_edges_scenario ("abcdefgh".data) 3 1 (by decide)⟩

/-- C9: under the precondition `overlap < windowSize` the chunker loop
terminates on every input: the run with fuel `text.length + 1` completes, and
any larger fuel bound gives the same completed result (each iteration strictly
advances the window start, so `text.length` iterations can never be reached). -/
theorem chunker_split_terminates (text : Str) (cs ov : Nat) (hov : ov < cs) :
    (∃ l, splitText text cs ov = some l) ∧
      ∀ fuel, text.length < fuel → splitTextLoop text cs ov fuel 0 = splitText text cs ov := by
  constructor
  · obtain ⟨spans, hsp, -⟩ := splitSpans_good text.length cs ov hov
    refine ⟨spans.map (sliceSpan text), ?_⟩
    rw [splitText, splitTextLoop_eq_spans]
    rw [splitSpans] at hsp
    rw [hsp]
    rfl
  · intro fuel hfuel
    rw [splitText, splitTextLoop_eq_spans, splitTextLoop_eq_spans,
      splitSpansLoop_fuel text.length cs ov hov fuel hfuel, splitSpans]

/-- Witness for C9 at `text = "abc"`, `windowSize = 2`, `overlap = 0`. -/
theorem chunker_split_terminates_witness :
    0 < 2 ∧ ((∃ l, splitText ("abc".data) 2 0 = some l) ∧
      ∀ fuel, ("abc".data).length < fuel →
        splitTextLoop ("abc".data) 2 0 fuel 0 = splitText ("abc".data) 2 0) :=
  ⟨by decide, chunker_split_terminates ("abc".data) 2 0 (by decide)⟩

theorem splitLoop_stuck_invalid :
    ∀ fuel, splitSpansLoop 2 1 1 fuel 0 = none ∧
      splitTextLoop ('a' :: 'b' :: []) 1 1 fuel 0 = none := by
  intro fuel
  induction fuel with
  | zero => exact ⟨rfl, rfl⟩
  | succ n ih =>
    constructor
    · simp [splitSpansLoop, ih.1]
    · simp [splitTextLoop, ih.2]

/-- C6 counterexample: `splitText` performs no precondition validation and has
no error path at all.  At the violating configuration `windowSize = 1`,
`overlap = 1` on the two-character text `"ab"`, the call does not fail with an
`InvalidConfiguration` error (the source has no such check): the loop simply
never terminates — it exhausts the standard fuel bound and, as a sample, 100
iterations of the span loop (the theorem after this one shows every fuel is
exhausted). -/
theorem chunker_invalid_config_no_error :
    splitText ('a' :: 'b' :: []) 1 1 = none ∧ splitSpansLoop 2 1 1 100 0 = none :=
  ⟨(splitLoop_stuck_invalid 3).2, (splitLoop_stuck_invalid 100).1⟩

/-- C6 (amended): the chunker does not validate `windowSize > 0 ∧ overlap <
windowSize` and never raises an `InvalidConfiguration` error; instead, on a
violating configuration such as `windowSize = 1 = overlap` with a text longer
than the window, the loop makes no progress (`start` is reset to the same
position every iteration) and never terminates, for any amount of fuel. -/
theorem chunker_invalid_config_loops_forever :
    ∀ fuel, splitSpansLoop 2 1 1 fuel 0 = none ∧
      splitTextLoop ('a' :: 'b' :: []) 1 1 fuel 0 = none :=
  fun fuel => splitLoop_stuck_invalid fuel

theorem retryLoop_exhausted (provider : Nat → Except ε α) (statusOf : ε → Option Nat)
    (jitter : Nat → Nat) (maxRetries attempt : Nat) (lastErr : Option ε)
    (h : ¬ attempt < maxRetries) :
    retryLoop provider statusOf jitter maxRetries attempt lastErr = ⟨.error lastErr, [], 0⟩ := by
  rw [retryLoop]
  simp [h]

theorem retryLoop_ok (provider : Nat → Except ε α) (statusOf : ε → Option Nat)
    (jitter : Nat → Nat) (maxRetries attempt : Nat) (lastErr : Option ε)
    (h : attempt < maxRetries) (v : α) (hp : provider attempt = .ok v) :
    retryLoop provider statusOf jitter maxRetries attempt lastErr = ⟨.ok v, [], 1⟩ := by
  rw [retryLoop]
  simp [h, hp]

theorem retryLoop_nonretryable (provider : Nat → Except ε α) (statusOf : ε → Option Nat)
    (jitter : Nat → Nat) (maxRetries attempt : Nat) (lastErr : Option ε)
    (h : attempt < maxRetries) (e : ε) (hp : provider attempt = .error e)
    (hr : isRetryableStatus (statusOf e) = false) :
    retryLoop provider statusOf jitter maxRetries attempt lastErr = ⟨.error (some e), [], 1⟩ := by
  rw [retryLoop]
  simp [h, hp, hr]

theorem retryLoop_retry (provider : Nat → Except ε α) (statusOf : ε → Option Nat)
    (jitter : Nat → Nat) (maxRetries attempt : Nat) (lastErr : Option ε)
    (h : attempt < maxRetries) (e : ε) (hp : provider attempt = .error e)
    (hr : isRetryableStatus (statusOf e) = true) :
    retryLoop provider statusOf jitter maxRetries attempt lastErr =
      ⟨(retryLoop provider statusOf jitter maxRetries (attempt + 1) (some e)).result,
       min (1000 * 2 ^ attempt + jitter attempt) 8000 ::
         (retryLoop provider statusOf jitter maxRetries (attempt + 1) (some e)).delays,
       (retryLoop provider statusOf jitter maxRetries (attempt + 1) (some e)).calls + 1⟩ := by
  rw [retryLoop]
  simp [h, hp, hr]

theorem retryLoop_calls_le (provider : Nat → Except ε α) (statusOf : ε → Option Nat)
    (jitter : Nat → Nat) (maxRetries : Nat) :
    ∀ n attempt lastErr, maxRetries - attempt ≤ n →
      (retryLoop provider statusOf jitter maxRetries attempt lastErr).calls ≤
        maxRetries - attempt := by
  intro n
  induction n with
  | zero =>
    intro attempt lastErr hn
    rw [retryLoop_exhausted provider statusOf jitter maxRetries attempt lastErr (by omega)]
    exact Nat.zero_le _
  | succ m ih =>
    intro attempt lastErr hn
    by_cases h : attempt < maxRetries
    · cases hp : provider attempt with
      | ok v =>
        rw [retryLoop_ok provider statusOf jitter maxRetries attempt lastErr h v hp]
        show 1 ≤ maxRetries - attempt
        omega
      | error e =>
        by_cases hr : isRetryableStatus (statusOf e)
        · rw [retryLoop_retry provider statusOf jitter maxRetries attempt lastErr h e hp hr]
          have hrec := ih (attempt + 1) (some e) (by omega)
          show (retryLoop provider statusOf jitter maxRetries (attempt + 1) (some e)).calls + 1 ≤
            maxRetries - attempt
          omega
        · rw [retryLoop_nonretryable provider statusOf jitter maxRetries attempt lastErr h e hp
            (by simpa using hr)]
          show 1 ≤ maxRetries - attempt
          omega
    · rw [retryLoop_exhausted provider statusOf jitter maxRetries attempt lastErr h]
      exact Nat.zero_le _

theorem retryLoop_calls_pos (provider : Nat → Except ε α) (statusOf : ε → Option Nat)
    (jitter : Nat → Nat) (maxRetries attempt : Nat) (lastErr : Option ε)
    (h : attempt < maxRetries) :
    1 ≤ (retryLoop provider statusOf jitter maxRetries attempt lastErr).calls := by
  cases hp : provider attempt with
  | ok v =>
    rw [retryLoop_ok provider statusOf jitter maxRetries attempt lastErr h v hp]
  | error e =>
    by_cases hr : isRetryableStatus (statusOf e)
    · rw [retryLoop_retry provider statusOf jitter maxRetries attempt lastErr h e hp hr]
      show 1 ≤ (retryLoop provider statusOf jitter maxRetries (attempt + 1) (some e)).calls + 1
      omega
    · rw [retryLoop_nonretryable provider statusOf jitter maxRetries attempt lastErr h e hp
        (by simpa using hr)]

theorem retryLoop_delay_bounds (provider : Nat → Except ε α) (statusOf : ε → Option Nat)
    (jitter : Nat → Nat) (maxRetries : Nat) (hj : ∀ a, jitter a ≤ 250) :
    ∀ n attempt lastErr, maxRetries - attempt ≤ n →
      ∀ i x, (retryLoop provider statusOf jitter maxRetries attempt lastErr).delays[i]? = some x →
        min (1000 * 2 ^ (attempt + i)) 8000 ≤ x ∧ x ≤ min (1000 * 2 ^ (attempt + i) + 250) 8000 := by
  intro n
  induction n with
  | zero =>
    intro attempt lastErr hn i x hx
    rw [retryLoop_exhausted provider statusOf jitter maxRetries attempt lastErr (by omega)] at hx
    simp at hx
  | succ m ih =>
    intro attempt lastErr hn i x hx
    by_cases h : attempt < maxRetries
    · cases hp : provider attempt with
      | ok v =>
        rw [retryLoop_ok provider statusOf jitter maxRetries attempt lastErr h v hp] at hx
        simp at hx
      | error e =>
        by_cases hr : isRetryableStatus (statusOf e)
        · rw [retryLoop_retry provider statusOf jitter maxRetries attempt lastErr h e hp hr] at hx
          simp only [] at hx
          cases i with
          | zero =>
            rw [List.getElem?_cons_zero] at hx
            obtain rfl : min (1000 * 2 ^ attempt + jitter attempt) 8000 = x :=
              Option.some_injective _ hx
            constructor
            · exact min_le_min (Nat.le_add_right _ _) le_rfl
            · exact min_le_min (Nat.add_le_add_left (hj attempt) _) le_rfl
          | succ i' =>
            rw [List.getElem?_cons_succ] at hx
            have hrec := ih (attempt + 1) (some e) (by omega) i' x hx
            have harith : attempt + 1 + i' = attempt + (i' + 1) := by omega
            rw [harith] at hrec
            exact hrec
        · rw [retryLoop_nonretryable provider statusOf jitter maxRetries attempt lastErr h e hp
            (by simpa using hr)] at hx
          simp at hx
    · rw [retryLoop_exhausted provider statusOf jitter maxRetries attempt lastErr h] at hx
      simp at hx

theorem retryLoop_all_retryable (provider : Nat → Except ε α) (statusOf : ε → Option Nat)
    (jitter : Nat → Nat) (maxRetries : Nat)
    (hall : ∀ i, i < maxRetries →
      ∃ e, provider i = .error e ∧ isRetryableStatus (statusOf e) = true) :
    ∀ n attempt lastErr, maxRetries - attempt ≤ n → attempt < maxRetries →
      ∃ e, provider (maxRetries - 1) = .error e ∧
        (retryLoop provider statusOf jitter maxRetries attempt lastErr).result =
          .error (some e) ∧
        (retryLoop provider statusOf jitter maxRetries attempt lastErr).calls =
          maxRetries - attempt ∧
        (retryLoop provider statusOf jitter maxRetries attempt lastErr).delays.length =
          maxRetries - attempt := by
  intro n
  induction n with
  | zero => intro attempt lastErr hn hlt; omega
  | succ m ih =>
    intro attempt lastErr hn hlt
    obtain ⟨e, hp, hr⟩ := hall attempt hlt
    rw [retryLoop_retry provider statusOf jitter maxRetries attempt lastErr hlt e hp hr]
    by_cases h1 : attempt + 1 < maxRetries
    · obtain ⟨e', hp', hres', hcalls', hdel'⟩ := ih (attempt + 1) (some e) (by omega) h1
      refine ⟨e', hp', hres', ?_, ?_⟩
      · show (retryLoop provider statusOf jitter maxRetries (attempt + 1) (some e)).calls + 1 =
          maxRetries - attempt
        omega
      · show (min (1000 * 2 ^ attempt + jitter attempt) 8000 ::
            (retryLoop provider statusOf jitter maxRetries (attempt + 1) (some e)).delays).length =
          maxRetries - attempt
        rw [List.length_cons]
        omega
    · have hmax : attempt + 1 = maxRetries := by omega
      have hinner := retryLoop_exhausted provider statusOf jitter maxRetries (attempt + 1)
        (some e) (by omega)
      have hlast : maxRetries - 1 = attempt := by omega
      rw [hlast]
      refine ⟨e, hp, ?_, ?_, ?_⟩
      · show (retryLoop provider statusOf jitter maxRetries (attempt + 1) (some e)).result =
          Except.error (some e)
        rw [hinner]
      · show (retryLoop provider statusOf jitter maxRetries (attempt + 1) (some e)).calls + 1 =
          maxRetries - attempt
        rw [hinner]
        show 0 + 1 = maxRetries - attempt
        omega
      · show (min (1000 * 2 ^ attempt + jitter attempt) 8000 ::
            (retryLoop provider statusOf jitter maxRetries (attempt + 1) (some e)).delays).length =
          maxRetries - attempt
        rw [hinner, List.length_cons]
        show 0 + 1 = maxRetries - attempt
        omega

/-- C3: the retry routine of `createEmbeddingsWithRetry` (i) makes at most
`maxRetries` provider calls; (ii) on a non-retryable first error (status
neither 429 nor in `[500, 600)`) rethrows that error immediately, with no
sleep and exactly one call; (iii) on a retryable error with budget left it
does retry (at least two calls, at least one sleep); (iv) when every attempt
fails retryably it stops after exactly `maxRetries` calls and rethrows the
error of the last attempt; and (v) every sleep before retry number `i`
(counting from 0) lasts between `min(1000·2^i, 8000)` and
`min(1000·2^i + 250, 8000)` milliseconds, given that the jitter oracle models
`Math.random() * 250` (values in `[0, 250]`). -/
theorem retry_policy_correct (provider : Nat → Except ε α) (statusOf : ε → Option Nat)
    (jitter : Nat → Nat) (maxRetries : Nat) (hj : ∀ a, jitter a ≤ 250) :
    (createEmbeddingsWithRetry provider statusOf jitter maxRetries).calls ≤ maxRetries ∧
    (∀ e, 0 < maxRetries → provider 0 = .error e → isRetryableStatus (statusOf e) = false →
      createEmbeddingsWithRetry provider statusOf jitter maxRetries =
        ⟨.error (some e), [], 1⟩) ∧
    (∀ e, 1 < maxRetries → provider 0 = .error e → isRetryableStatus (statusOf e) = true →
      2 ≤ (createEmbeddingsWithRetry provider statusOf jitter maxRetries).calls ∧
      (createEmbeddingsWithRetry provider statusOf jitter maxRetries).delays ≠ []) ∧
    ((∀ i, i < maxRetries →
        ∃ e, provider i = .error e ∧ isRetryableStatus (statusOf e) = true) →
      0 < maxRetries →
      ∃ e, provider (maxRetries - 1) = .error e ∧
        (createEmbeddingsWithRetry provider statusOf jitter maxRetries).result =
          .error (some e) ∧
        (createEmbeddingsWithRetry provider statusOf jitter maxRetries).calls = maxRetries ∧
        (createEmbeddingsWithRetry provider statusOf jitter maxRetries).delays.length =
          maxRetries) ∧
    (∀ i x, (createEmbeddingsWithRetry provider statusOf jitter maxRetries).delays[i]? = some x →
      min (1000 * 2 ^ i) 8000 ≤ x ∧ x ≤ min (1000 * 2 ^ i + 250) 8000) := by
  refine ⟨?_, ?_, ?_, ?_, ?_⟩
  · have := retryLoop_calls_le provider statusOf jitter maxRetries maxRetries 0 none (by omega)
    simpa [createEmbeddingsWithRetry] using this
  · intro e h0 hp hr
    rw [createEmbeddingsWithRetry,
      retryLoop_nonretryable provider statusOf jitter maxRetries 0 none h0 e hp hr]
  · intro e h1 hp hr
    rw [createEmbeddingsWithRetry,
      retryLoop_retry provider statusOf jitter maxRetries 0 none (by omega) e hp hr]
    have hpos := retryLoop_calls_pos provider statusOf jitter maxRetries 1 (some e) h1
    constructor
    · show 2 ≤ (retryLoop provider statusOf jitter maxRetries 1 (some e)).calls + 1
      omega
    · show min (1000 * 2 ^ 0 + jitter 0) 8000 ::
          (retryLoop provider statusOf jitter maxRetries 1 (some e)).delays ≠ []
      exact List.cons_ne_nil _ _
  · intro hall h0
    have := retryLoop_all_retryable provider statusOf jitter maxRetries hall maxRetries 0 none
      (by omega) h0
    simpa [createEmbeddingsWithRetry] using this
  · intro i x hx
    have := retryLoop_delay_bounds provider statusOf jitter maxRetries hj maxRetries 0 none
      (by omega) i x (by simpa [createEmbeddingsWithRetry] using hx)
    simpa using this

/-- Witness for C3 at a provider that always fails with status 503, zero
jitter and `maxRetries = 2`. -/
theorem retry_policy_correct_witness :
    (∀ a : Nat, (fun _ : Nat => (0 : Nat)) a ≤ 250) ∧
    ((createEmbeddingsWithRetry (fun _ : Nat => (Except.error 503 : Except Nat Unit))
        (fun e : Nat => some e) (fun _ : Nat => (0 : Nat)) 2).calls ≤ 2 ∧
    (∀ e, 0 < 2 →
      (fun _ : Nat => (Except.error 503 : Except Nat Unit)) 0 = Except.error e →
      isRetryableStatus ((fun e : Nat => some e) e) = false →
      createEmbeddingsWithRetry (fun _ : Nat => (Except.error 503 : Except Nat Unit))
        (fun e : Nat => some e) (fun _ : Nat => (0 : Nat)) 2 =
        ⟨Except.error (some e), [], 1⟩) ∧
    (∀ e, 1 < 2 →
      (fun _ : Nat => (Except.error 503 : Except Nat Unit)) 0 = Except.error e →
      isRetryableStatus ((fun e : Nat => some e) e) = true →
      2 ≤ (createEmbeddingsWithRetry (fun _ : Nat => (Except.error 503 : Except Nat Unit))
        (fun e : Nat => some e) (fun _ : Nat => (0 : Nat)) 2).calls ∧
      (createEmbeddingsWithRetry (fun _ : Nat => (Except.error 503 : Except Nat Unit))
        (fun e : Nat => some e) (fun _ : Nat => (0 : Nat)) 2).delays ≠ []) ∧
    ((∀ i, i < 2 →
        ∃ e, (fun _ : Nat => (Except.error 503 : Except Nat Unit)) i = Except.error e ∧
          isRetryableStatus ((fun e : Nat => some e) e) = true) →
      0 < 2 →
      ∃ e, (fun _ : Nat => (Except.error 503 : Except Nat Unit)) (2 - 1) = Except.error e ∧
        (createEmbeddingsWithRetry (fun _ : Nat => (Except.error 503 : Except Nat Unit))
          (fun e : Nat => some e) (fun _ : Nat => (0 : Nat)) 2).result =
          Except.error (some e) ∧
        (createEmbeddingsWithRetry (fun _ : Nat => (Except.error 503 : Except Nat Unit))
          (fun e : Nat => some e) (fun _ : Nat => (0 : Nat)) 2).calls = 2 ∧
        (createEmbeddingsWithRetry (fun _ : Nat => (Except.error 503 : Except Nat Unit))
          (fun e : Nat => some e) (fun _ : Nat => (0 : Nat)) 2).delays.length = 2) ∧
    (∀ i x,
      (createEmbeddingsWithRetry (fun _ : Nat => (Except.error 503 : Except Nat Unit))
        (fun e : Nat => some e) (fun _ : Nat => (0 : Nat)) 2).delays[i]? = some x →
      min (1000 * 2 ^ i) 8000 ≤ x ∧ x ≤ min (1000 * 2 ^ i + 250) 8000)) :=
  ⟨fun _ => Nat.zero_le 250,
    retry_policy_correct (fun _ : Nat => (Except.error 503 : Except Nat Unit))
      (fun e : Nat => some e) (fun _ : Nat => (0 : Nat)) 2 (fun _ => Nat.zero_le 250)⟩

theorem survivors_map_fst (l : List Str) :
    ∀ start, (survivors l start).map Prod.fst =
      (l.map trimChars).filter (fun t => 0 < t.length) := by
  induction l with
  | nil => intro start; rfl
  | cons c cs ih =>
    intro start
    simp only [survivors, List.map_cons, List.filter_cons]
    by_cases h : 0 < (trimChars c).length
    · simp [h, ih (start + 1)]
    · simp [h, ih (start + 1)]

theorem survivors_length_le (l : List Str) :
    ∀ start, (survivors l start).length ≤ l.length := by
  induction l with
  | nil => intro start; simp [survivors]
  | cons c cs ih =>
    intro start
    simp only [survivors]
    by_cases h : 0 < (trimChars c).length
    · simp only [h, if_true, List.length_cons]
      exact Nat.succ_le_succ (ih (start + 1))
    · simp only [h, if_false, List.length_cons]
      exact Nat.le_succ_of_le (ih (start + 1))

theorem survivors_append (a b : List Str) :
    ∀ start, survivors (a ++ b) start = survivors a start ++ survivors b (start + a.length) := by
  induction a with
  | nil => intro start; simp [survivors]
  | cons c cs ih =>
    intro start
    simp only [List.cons_append, survivors, List.length_cons, List.append_eq]
    have harith : start + 1 + cs.length = start + (cs.length + 1) := by omega
    by_cases h : 0 < (trimChars c).length
    · rw [if_pos h, if_pos h, ih (start + 1), harith, List.cons_append]
    · rw [if_neg h, if_neg h, ih (start + 1), harith]

theorem survivors_take_drop (l : List Str) (bs : Nat) (start : Nat) :
    survivors l start = survivors (l.take bs) start ++ survivors (l.drop bs) (start + bs) := by
  by_cases h : bs ≤ l.length
  · have h1 : (l.take bs).length = bs := by
      rw [List.length_take]
      omega
    calc survivors l start = survivors (l.take bs ++ l.drop bs) start := by
          rw [List.take_append_drop]
      _ = survivors (l.take bs) start ++ survivors (l.drop bs) (start + (l.take bs).length) :=
          survivors_append _ _ start
      _ = survivors (l.take bs) start ++ survivors (l.drop bs) (start + bs) := by rw [h1]
  · have h1 : l.take bs = l := List.take_of_length_le (by omega)
    have h2 : l.drop bs = [] := List.drop_eq_nil_of_le (by omega)
    rw [h1, h2]
    simp [survivors]

theorem survivors_mem_inv (l : List Str) :
    ∀ start p, p ∈ survivors l start →
      ∃ i, ∃ hi : i < l.length, p = (trimChars (l.get ⟨i, hi⟩), start + i) ∧
        0 < p.1.length := by
  induction l with
  | nil => intro start p hp; simp [survivors] at hp
  | cons c cs ih =>
    intro start p hp
    simp only [survivors] at hp
    by_cases h : 0 < (trimChars c).length
    · rw [if_pos h] at hp
      rcases List.mem_cons.mp hp with hp0 | hp1
      · exact ⟨0, by simp, by simpa using hp0, by rw [hp0]; exact h⟩
      · obtain ⟨i, hi, hpe, hpl⟩ := ih (start + 1) p hp1
        refine ⟨i + 1, by simpa using Nat.succ_lt_succ hi, ?_, hpl⟩
        rw [hpe]
        have : start + 1 + i = start + (i + 1) := by omega
        rw [this]
        rfl
    · rw [if_neg h] at hp
      obtain ⟨i, hi, hpe, hpl⟩ := ih (start + 1) p hp
      refine ⟨i + 1, by simpa using Nat.succ_lt_succ hi, ?_, hpl⟩
      rw [hpe]
      have : start + 1 + i = start + (i + 1) := by omega
      rw [this]
      rfl

theorem survivors_mem_fwd (l : List Str) :
    ∀ start i, ∀ hi : i < l.length, 0 < (trimChars (l.get ⟨i, hi⟩)).length →
      (trimChars (l.get ⟨i, hi⟩), start + i) ∈ survivors l start := by
  induction l with
  | nil => intro start i hi; simp at hi
  | cons c cs ih =>
    intro start i hi hlen
    simp only [survivors]
    cases i with
    | zero =>
      simp only [List.get] at hlen ⊢
      rw [if_pos hlen]
      exact List.mem_cons_self _ _
    | succ i' =>
      have hi' : i' < cs.length := by simpa using hi
      have hmem := ih (start + 1) i' hi' (by simpa using hlen)
      have harith : start + 1 + i' = start + (i' + 1) := by omega
      rw [harith] at hmem
      by_cases h : 0 < (trimChars c).length
      · rw [if_pos h]
        exact List.mem_cons_of_mem _ (by simpa using hmem)
      · rw [if_neg h]
        simpa using hmem

theorem survivors_snd_lb (l : List Str) (start : Nat) (p : Str × Nat)
    (hp : p ∈ survivors l start) : start ≤ p.2 := by
  obtain ⟨i, hi, hpe, -⟩ := survivors_mem_inv l start p hp
  rw [hpe]
  omega

theorem survivors_pairwise (l : List Str) :
    ∀ start, (survivors l start).Pairwise (fun a b => a.2 < b.2) := by
  induction l with
  | nil => intro start; simp [survivors]
  | cons c cs ih =>
    intro start
    simp only [survivors]
    by_cases h : 0 < (trimChars c).length
    · rw [if_pos h]
      refine List.pairwise_cons.mpr ⟨?_, ih (start + 1)⟩
      intro p hp
      have := survivors_snd_lb cs (start + 1) p hp
      simp only []
      omega
    · rw [if_neg h]
      exact ih (start + 1)

theorem nonEmpty_eq_survivors (l : List Str) :
    ∀ start, ((l.map trimChars).mapIdx (fun idx t => (t, start + idx))).filter
        (fun x => 0 < x.1.length) = survivors l start := by
  induction l with
  | nil => intro start; rfl
  | cons c cs ih =>
    intro start
    simp only [List.map_cons, List.mapIdx_cons, List.filter_cons, survivors]
    have hfe : (fun i t => ((t, start + (i + 1)) : Str × Nat)) =
        (fun i t => (t, start + 1 + i)) := by
      funext i t
      have : start + (i + 1) = start + 1 + i := by omega
      rw [this]
    by_cases h : 0 < (trimChars c).length
    · rw [hfe, ih (start + 1)]
      simp [h]
    · rw [hfe, ih (start + 1)]
      simp [h]

theorem embedAllChunksLoop_spec (embed : List Str → List V)
    (idPrefix filename sourceUrl : Str) (batchSize : Nat) (hbs : 0 < batchSize)
    (hembed : ∀ xs, (embed xs).length = xs.length) :
    ∀ fuel remaining start, remaining.length ≤ fuel →
      ∃ recs calls,
        embedAllChunksLoop embed idPrefix filename sourceUrl batchSize fuel remaining start =
          some (recs, calls) ∧
        recs.map (fun r => (r.text, r.chunk_index)) = survivors remaining start ∧
        (∀ r ∈ recs, r.id = idPrefix ++ ('-' :: natChars r.chunk_index) ∧
          r.filename = filename ∧ r.source_url = sourceUrl) ∧
        calls.flatten = (remaining.map trimChars).filter (fun t => 0 < t.length) ∧
        (∀ c ∈ calls, c.length ≤ batchSize ∧ c ≠ []) := by
  intro fuel
  induction fuel with
  | zero =>
    intro remaining start hlen
    have hnil : remaining = [] := List.length_eq_zero.mp (by omega)
    subst hnil
    exact ⟨[], [], rfl, rfl, by simp, rfl, by simp⟩
  | succ f ih =>
    intro remaining start hlen
    cases remaining with
    | nil => exact ⟨[], [], rfl, rfl, by simp, rfl, by simp⟩
    | cons c cs =>
      have hNE : ((((c :: cs).take batchSize).map trimChars).mapIdx
            (fun idx t => (t, start + idx))).filter (fun x => 0 < x.1.length) =
          survivors ((c :: cs).take batchSize) start :=
        nonEmpty_eq_survivors _ start
      obtain ⟨recs', calls', hloop', hproj', hids', hflat', hcb'⟩ :=
        ih ((c :: cs).drop batchSize) (start + batchSize)
          (by simp only [List.length_drop]; simp at hlen ⊢; omega)
      have hsplit := survivors_take_drop (c :: cs) batchSize start
      have hfsplit : ((c :: cs).map trimChars).filter (fun t => 0 < t.length) =
          (((c :: cs).take batchSize).map trimChars).filter (fun t => 0 < t.length) ++
          (((c :: cs).drop batchSize).map trimChars).filter (fun t => 0 < t.length) := by
        conv_lhs => rw [← List.take_append_drop batchSize (c :: cs)]
        rw [List.map_append, List.filter_append]
      have hfst := survivors_map_fst ((c :: cs).take batchSize) start
      cases hcase : survivors ((c :: cs).take batchSize) start with
      | nil =>
        have hstep : embedAllChunksLoop embed idPrefix filename sourceUrl batchSize (f + 1)
            (c :: cs) start =
            embedAllChunksLoop embed idPrefix filename sourceUrl batchSize f
              ((c :: cs).drop batchSize) (start + batchSize) := by
          simp only [embedAllChunksLoop]
          rw [hNE, hcase]
          simp
        refine ⟨recs', calls', by rw [hstep, hloop'], ?_, hids', ?_, hcb'⟩
        · rw [hproj', hsplit, hcase, List.nil_append]
        · rw [hflat', hfsplit, ← hfst, hcase, List.map_nil, List.nil_append]
      | cons p ps =>
        have hstep : embedAllChunksLoop embed idPrefix filename sourceUrl batchSize (f + 1)
            (c :: cs) start =
            some (List.map (mkRecord idPrefix filename sourceUrl)
                ((p :: ps).zip (embed (List.map (fun x => x.1) (p :: ps)))) ++ recs',
              List.map (fun x => x.1) (p :: ps) :: calls') := by
          simp only [embedAllChunksLoop]
          rw [hNE, hcase, hloop']
          simp
        have hzlen : (p :: ps).length ≤ (embed (List.map (fun x => x.1) (p :: ps))).length := by
          rw [hembed, List.length_map]
        have hprojB : (List.map (mkRecord idPrefix filename sourceUrl)
              ((p :: ps).zip (embed (List.map (fun x => x.1) (p :: ps))))).map
              (fun r => (r.text, r.chunk_index)) =
            p :: ps := by
          rw [List.map_map]
          have hcomp : ((fun r : VectorRecord V => (r.text, r.chunk_index)) ∘
              mkRecord idPrefix filename sourceUrl) =
              (fun x : (Str × Nat) × V => x.1) := by
            funext x
            simp [mkRecord]
          rw [hcomp, List.map_fst_zip _ _ hzlen]
        refine ⟨_, _, hstep, ?_, ?_, ?_, ?_⟩
        · rw [List.map_append, hprojB, hproj', hsplit, hcase]
        · intro r hr
          rcases List.mem_append.mp hr with hr1 | hr2
          · obtain ⟨x, -, rfl⟩ := List.mem_map.mp hr1
            exact ⟨rfl, rfl, rfl⟩
          · exact hids' r hr2
        · rw [List.flatten_cons, hflat', hfsplit, ← hfst, hcase]
        · intro cc hcc
          rcases List.mem_cons.mp hcc with hc1 | hc2
          · subst hc1
            constructor
            · rw [List.length_map]
              have h1 := survivors_length_le ((c :: cs).take batchSize) start
              rw [hcase] at h1
              have h2 : ((c :: cs).take batchSize).length ≤ batchSize := by
                rw [List.length_take]
                omega
              omega
            · simp
          · exact hcb' cc hc2

theorem map_chunk_index_of_proj (recs : List (VectorRecord V)) (surv : List (Str × Nat))
    (h : recs.map (fun r => (r.text, r.chunk_index)) = surv) :
    recs.map (fun r => r.chunk_index) = surv.map Prod.snd := by
  rw [← h, List.map_map]
  rfl

theorem map_id_of_ids (pfx : Str) (recs : List (VectorRecord V))
    (h : ∀ r ∈ recs, r.id = pfx ++ ('-' :: natChars r.chunk_index)) :
    recs.map (fun r => r.id) =
      (recs.map (fun r => r.chunk_index)).map (fun i => pfx ++ ('-' :: natChars i)) := by
  rw [List.map_map]
  exact List.map_congr_left (fun r hr => by rw [h r hr]; rfl)

/-- C4: for every chunk sequence (with a positive batch size and a provider
returning one vector per input), the batcher groups chunks into consecutive
batches of at most `batchSize` (each provider call's input list has length at
most `batchSize`), drops every chunk that is empty after trimming before the
provider call, gives every surviving chunk a record whose `id` is the
`idPrefix` joined by `-` with the chunk's original zero-based position, whose
`chunk_index` is that original position, and returns the records in ascending
original chunk order; the concatenation of the provider-call inputs is
exactly the trimmed nonempty chunks in order. -/
theorem batcher_grouping_ids_order (V : Type) (embed : List Str → List V)
    (idPrefix filename sourceUrl : Str) (batchSize : Nat) (chunks : List Str)
    (hbs : 0 < batchSize) (hembed : ∀ xs, (embed xs).length = xs.length) :
    ∃ recs calls,
      embedAllChunks embed idPrefix filename sourceUrl batchSize chunks = some (recs, calls) ∧
      recs.map (fun r => (r.text, r.chunk_index)) = survivors chunks 0 ∧
      (∀ r ∈ recs, r.id = idPrefix ++ ('-' :: natChars r.chunk_index)) ∧
      (recs.map (fun r => r.chunk_index)).Pairwise (fun a b => a < b) ∧
      (∀ i, ∀ hi : i < chunks.length, 0 < (trimChars (chunks.get ⟨i, hi⟩)).length →
        ∃ r, r ∈ recs ∧ r.chunk_index = i ∧ r.text = trimChars (chunks.get ⟨i, hi⟩)) ∧
      calls.flatten = (chunks.map trimChars).filter (fun t => 0 < t.length) ∧
      (∀ c ∈ calls, c.length ≤ batchSize) := by
  obtain ⟨recs, calls, hloop, hproj, hids, hflat, hcb⟩ :=
    embedAllChunksLoop_spec embed idPrefix filename sourceUrl batchSize hbs hembed
      chunks.length chunks 0 (le_refl _)
  refine ⟨recs, calls, hloop, hproj, fun r hr => (hids r hr).1, ?_, ?_, hflat,
    fun cc hcc => (hcb cc hcc).1⟩
  · rw [map_chunk_index_of_proj recs (survivors chunks 0) hproj]
    exact List.Pairwise.map Prod.snd (fun _ _ hab => hab) (survivors_pairwise chunks 0)
  · intro i hi hlen
    have hmem := survivors_mem_fwd chunks 0 i hi hlen
    rw [Nat.zero_add] at hmem
    rw [← hproj] at hmem
    obtain ⟨r, hr, hre⟩ := List.mem_map.mp hmem
    have h1 : r.text = trimChars (chunks.get ⟨i, hi⟩) := (Prod.mk.injEq _ _ _ _).mp hre |>.1
    have h2 : r.chunk_index = i := (Prod.mk.injEq _ _ _ _).mp hre |>.2
    exact ⟨r, hr, h2, h1⟩

/-- C5: re-running the ingestion of the same document key with the same
chunks and batch size produces records with identical id strings, in both
runs (shown for two runs with arbitrary — even different — embedding
outcomes, so it holds for any number of repetitions); every id is a function
of the document key (through `idPrefixOf`, the source's
`key.replace(/\//g,'_').replace(/\./g,'-')`) and the chunk's original index
only. -/
theorem ids_idempotent_across_runs (V₁ V₂ : Type) (embed₁ : List Str → List V₁)
    (embed₂ : List Str → List V₂) (key filename sourceUrl : Str) (batchSize : Nat)
    (chunks : List Str) (hbs : 0 < batchSize)
    (h₁ : ∀ xs, (embed₁ xs).length = xs.length)
    (h₂ : ∀ xs, (embed₂ xs).length = xs.length) :
    ∃ recs₁ calls₁ recs₂ calls₂,
      embedAllChunks embed₁ (idPrefixOf key) filename sourceUrl batchSize chunks =
        some (recs₁, calls₁) ∧
      embedAllChunks embed₂ (idPrefixOf key) filename sourceUrl batchSize chunks =
        some (recs₂, calls₂) ∧
      recs₁.map (fun r => r.id) = recs₂.map (fun r => r.id) ∧
      (∀ r ∈ recs₁, r.id = idPrefixOf key ++ ('-' :: natChars r.chunk_index)) := by
  obtain ⟨recs₁, calls₁, hloop₁, hproj₁, hids₁, -, -⟩ :=
    embedAllChunksLoop_spec embed₁ (idPrefixOf key) filename sourceUrl batchSize hbs h₁
      chunks.length chunks 0 (le_refl _)
  obtain ⟨recs₂, calls₂, hloop₂, hproj₂, hids₂, -, -⟩ :=
    embedAllChunksLoop_spec embed₂ (idPrefixOf key) filename sourceUrl batchSize hbs h₂
      chunks.length chunks 0 (le_refl _)
  refine ⟨recs₁, calls₁, recs₂, calls₂, hloop₁, hloop₂, ?_, fun r hr => (hids₁ r hr).1⟩
  rw [map_id_of_ids (idPrefixOf key) recs₁ (fun r hr => (hids₁ r hr).1),
    map_id_of_ids (idPrefixOf key) recs₂ (fun r hr => (hids₂ r hr).1),
    map_chunk_index_of_proj recs₁ (survivors chunks 0) hproj₁,
    map_chunk_index_of_proj recs₂ (survivors chunks 0) hproj₂]

/-- C10: every record the batcher produces stores the whitespace-trimmed
chunk text (the trim of the chunk at its `chunk_index`), that trimmed text is
nonempty, and the same trimmed text occurs among the inputs sent to the
embedding provider. -/
theorem records_store_trimmed_text (V : Type) (embed : List Str → List V)
    (idPrefix filename sourceUrl : Str) (batchSize : Nat) (chunks : List Str)
    (hbs : 0 < batchSize) (hembed : ∀ xs, (embed xs).length = xs.length) :
    ∃ recs calls,
      embedAllChunks embed idPrefix filename sourceUrl batchSize chunks = some (recs, calls) ∧
      ∀ r ∈ recs, (∃ hi : r.chunk_index < chunks.length,
          r.text = trimChars (chunks.get ⟨r.chunk_index, hi⟩)) ∧
        0 < r.text.length ∧ r.text ∈ calls.flatten := by
  obtain ⟨recs, calls, hloop, hproj, hids, hflat, hcb⟩ :=
    embedAllChunksLoop_spec embed idPrefix filename sourceUrl batchSize hbs hembed
      chunks.length chunks 0 (le_refl _)
  refine ⟨recs, calls, hloop, ?_⟩
  intro r hr
  have hmem : (r.text, r.chunk_index) ∈ survivors chunks 0 := by
    rw [← hproj]
    exact List.mem_map_of_mem _ hr
  obtain ⟨i, hi, hpe, hpl⟩ := survivors_mem_inv chunks 0 (r.text, r.chunk_index) hmem
  have htext : r.text = trimChars (chunks.get ⟨i, hi⟩) := (Prod.mk.injEq _ _ _ _).mp hpe |>.1
  have hidx : r.chunk_index = i := by
    have := (Prod.mk.injEq _ _ _ _).mp hpe |>.2
    omega
  refine ⟨⟨by omega, ?_⟩, hpl, ?_⟩
  · subst hidx
    exact htext
  · rw [hflat]
    apply List.mem_filter.mpr
    constructor
    · rw [htext]
      exact List.mem_map_of_mem trimChars (chunks.get_mem i hi)
    · simpa using hpl

/-- Witness for C4 at chunks `[" a", "", "b "]`, batch size 2, a constant
embedding provider. -/
theorem batcher_grouping_ids_order_witness :
    0 < 2 ∧ (∃ recs calls,
      embedAllChunks (fun xs => xs.map (fun _ => (0 : Nat))) (("k").data) (("f").data)
        (("s").data) 2 [(" a").data, [], ("b ").data] = some (recs, calls) ∧
      recs.map (fun r => (r.text, r.chunk_index)) =
        survivors [(" a").data, [], ("b ").data] 0 ∧
      (∀ r ∈ recs, r.id = ("k").data ++ ('-' :: natChars r.chunk_index)) ∧
      (recs.map (fun r => r.chunk_index)).Pairwise (fun a b => a < b) ∧
      (∀ i, ∀ hi : i < ([(" a").data, [], ("b ").data] : List Str).length,
        0 < (trimChars (([(" a").data, [], ("b ").data] : List Str).get ⟨i, hi⟩)).length →
        ∃ r, r ∈ recs ∧ r.chunk_index = i ∧
          r.text = trimChars (([(" a").data, [], ("b ").data] : List Str).get ⟨i, hi⟩)) ∧
      calls.flatten = ([(" a").data, [], ("b ").data].map trimChars).filter
        (fun t => 0 < t.length) ∧
      (∀ c ∈ calls, c.length ≤ 2)) :=
  ⟨by decide, batcher_grouping_ids_order Nat (fun xs => xs.map (fun _ => (0 : Nat)))
    (("k").data) (("f").data) (("s").data) 2 [(" a").data, [], ("b ").data] (by decide)
    (fun xs => List.length_map xs _)⟩

/-- Witness for C5 at key `uploads/f.pdf`, chunks `[" a", "b"]`, two runs with
different embedding outcomes. -/
theorem ids_idempotent_across_runs_witness :
    0 < 2 ∧ (∃ recs₁ calls₁ recs₂ calls₂,
      embedAllChunks (fun xs => xs.map (fun _ => (0 : Nat)))
        (idPrefixOf (("uploads/f.pdf").data)) (("f").data) (("s").data) 2
        [(" a").data, ("b").data] = some (recs₁, calls₁) ∧
      embedAllChunks (fun xs => xs.map (fun _ => true))
        (idPrefixOf (("uploads/f.pdf").data)) (("f").data) (("s").data) 2
        [(" a").data, ("b").data] = some (recs₂, calls₂) ∧
      recs₁.map (fun r => r.id) = recs₂.map (fun r => r.id) ∧
      (∀ r ∈ recs₁, r.id = idPrefixOf (("uploads/f.pdf").data) ++
        ('-' :: natChars r.chunk_index))) :=
  ⟨by decide, ids_idempotent_across_runs Nat Bool (fun xs => xs.map (fun _ => (0 : Nat)))
    (fun xs => xs.map (fun _ => true)) (("uploads/f.pdf").data) (("f").data) (("s").data) 2
    [(" a").data, ("b").data] (by decide) (fun xs => List.length_map xs _)
    (fun xs => List.length_map xs _)⟩

/-- Witness for C10 at chunks `[" a", "", "b "]`, batch size 2. -/
theorem records_store_trimmed_text_witness :
    0 < 2 ∧ (∃ recs calls,
      embedAllChunks (fun xs => xs.map (fun _ => (0 : Nat))) (("k").data) (("f").data)
        (("s").data) 2 [(" a").data, [], ("b ").data] = some (recs, calls) ∧
      ∀ r ∈ recs, (∃ hi : r.chunk_index < ([(" a").data, [], ("b ").data] : List Str).length,
          r.text = trimChars (([(" a").data, [], ("b ").data] : List Str).get
            ⟨r.chunk_index, hi⟩)) ∧
        0 < r.text.length ∧ r.text ∈ calls.flatten) :=
  ⟨by decide, records_store_trimmed_text Nat (fun xs => xs.map (fun _ => (0 : Nat)))
    (("k").data) (("f").data) (("s").data) 2 [(" a").data, [], ("b ").data] (by decide)
    (fun xs => List.length_map xs _)⟩

/-- C7: when the environment is configured and the method guard passes
(absent method or POST), a request whose query is empty after trimming —
including an absent query field and an unparsable or missing body — is
rejected with HTTP 400 (`Missing query`) and no provider call (embedding,
index query or chat completion) is made. -/
theorem query_empty_rejected (envOk : Bool) (httpMethod : Option Str)
    (body : Option QueryBody) (henv : envOk = true)
    (hmethod : httpMethod = none ∨ httpMethod = some (("POST").data))
    (hquery : trimChars (((body.getD ⟨none, none, none⟩).query).getD []) = []) :
    queryHandler envOk httpMethod body = (400, []) := by
  subst henv
  rcases hmethod with h | h <;> subst h <;> simp [queryHandler, hquery]

/-- Witness for C7 at a well-configured environment, absent method and absent
body. -/
theorem query_empty_rejected_witness :
    (true = true ∧ ((none : Option Str) = none ∨
      (none : Option Str) = some (("POST").data)) ∧
      trimChars ((((none : Option QueryBody).getD ⟨none, none, none⟩).query).getD []) = []) ∧
    queryHandler true none none = (400, []) :=
  ⟨⟨rfl, Or.inl rfl, rfl⟩, query_empty_rejected true none none rfl (Or.inl rfl) rfl⟩

/-- C8: a document whose extracted text is empty or whitespace-only is a
terminal no-op for the ingestion orchestrator: the run succeeds (no error)
with an empty effect list — no embedding-provider call, no upsert, and no
deletion of the source object. -/
theorem empty_text_noop (V : Type) (embed : List Str → List V) (bucket key rawText : Str)
    (h : trimChars rawText = []) :
    processExtractedText embed bucket key rawText = some [] := by
  simp [processExtractedText, h]

/-- Witness for C8 at a whitespace-only extracted text. -/
theorem empty_text_noop_witness :
    trimChars ((" ").data) = [] ∧
    processExtractedText (fun xs => xs.map (fun _ => (0 : Nat))) (("b").data)
      (("uploads/f.pdf").data) ((" ").data) = some [] :=
  ⟨by decide, empty_text_noop Nat (fun xs => xs.map (fun _ => (0 : Nat))) (("b").data)
    (("uploads/f.pdf").data) ((" ").data) (by decide)⟩
